import Mathlib

/-!
Shallow embedding of the chess rules engine in `components.py` of the
idle-chess repository, together with theorems settling the frozen claims
about its specification.

Conventions of the embedding:

* Python `None` becomes `Option.none`; a Python fault (uncaught exception
  such as `RecursionError`, `AttributeError` from `None.kind`, or
  `StopIteration` from `next` on an empty generator) or exhaustion of the
  recursion budget becomes the `none` of an `Option`-valued result.
* The mutual recursion between `Move.is_legal` and `Game.king_is_in_check`
  (through the castling branch of `Move.king_move` and through
  `Move.piece_passes_through_check`) is not structurally terminating, so the
  whole nest is defined as one structurally recursive function `engineF`
  over an explicit fuel (`Nat`) argument; `none` means the budget ran out
  (which, by the divergence theorem below, can model genuine
  non-termination of the Python original).
* Machine integers are `Int` (board coordinates) and `Nat` (counters);
  Python subsets of `{'kingside', 'queenside'}` become the `Rights`
  record of two booleans; the board dictionary (64 squares, row-major
  insertion order) becomes a total function `Space → Option Piece`
  together with the explicit row-major key list `allSpaces`.
* `Game.move` in Python mutates `self` (`self.moves_since_pawn_move_or_capture
  += 1` and the in-place `self.states += [...]` through the aliased
  `prev_states` list); the embedding `movePy` therefore returns the pair
  (mutated caller, new game).
-/

/-- Piece kinds, the closed enumeration behind the Python kind strings. -/
inductive Kind where
  | pawn | knight | bishop | rook | queen | king
deriving DecidableEq, Repr

/-- The two players, `main.PLAYERS` of the repository (white first). -/
inductive Player where
  | white | black
deriving DecidableEq, Repr

/-- Castle types, the elements of the Python sets of castling rights. -/
inductive CastleSide where
  | kingside | queenside
deriving DecidableEq, Repr

/-- Perspective transform of `main.PLAYERS`: white is the identity,
black maps row `r` to `BOARD_SIZE - 1 - r = 7 - r`. -/
def Player.perspective : Player → Int → Int
  | .white, r => r
  | .black, r => 7 - r

/-- Opponent of a player; `players[(move_num + 1) % 2]` relative to
`players[move_num % 2]`. -/
def Player.opp : Player → Player
  | .white => .black
  | .black => .white

/-- A board coordinate, the `Space` namedtuple `(row, col)`. -/
structure Space where
  row : Int
  col : Int
deriving DecidableEq, Repr

/-- A piece, the `Piece` namedtuple `(kind, player)`. -/
structure Piece where
  kind : Kind
  player : Player
deriving DecidableEq, Repr

/-- A move, the `Move` namedtuple `(piece, start, end, promotion)`.
The source field name `end` is a Lean keyword, hence `endS`. -/
structure Move where
  piece : Piece
  start : Space
  endS : Space
  promotion : Option Kind
deriving DecidableEq, Repr

/-- A subset of `{'kingside', 'queenside'}`, one boolean per element. -/
structure Rights where
  kingside : Bool
  queenside : Bool
deriving DecidableEq, Repr

/-- The castling-rights dictionary keyed by the two players. -/
structure CRights where
  whiteR : Rights
  blackR : Rights
deriving DecidableEq, Repr

/-- Lookup in the castling-rights dictionary. -/
def CRights.get : CRights → Player → Rights
  | cr, .white => cr.whiteR
  | cr, .black => cr.blackR

/-- Pointwise update of one player's entry in the rights dictionary. -/
def CRights.setR : CRights → Player → Rights → CRights
  | cr, .white, r => ⟨r, cr.blackR⟩
  | cr, .black, r => ⟨cr.whiteR, r⟩

/-- Membership of a castle type in a rights set. -/
def Rights.has : Rights → CastleSide → Bool
  | r, .kingside => r.kingside
  | r, .queenside => r.queenside

/-- Set difference of rights sets: `castle_rights[player] -= lost_rights`. -/
def Rights.diff (r lost : Rights) : Rights :=
  ⟨r.kingside && !lost.kingside, r.queenside && !lost.queenside⟩

/-- Subset order on rights sets. -/
def Rights.subsetOf (r₁ r₂ : Rights) : Prop :=
  (r₁.kingside = true → r₂.kingside = true) ∧
  (r₁.queenside = true → r₂.queenside = true)

/-- The board: a total map from squares to optional pieces, the value view
of the Python board dictionary. -/
def Board := Space → Option Piece

/-- The 64 board squares in the dictionary's row-major insertion order
(`create_empty_board`). -/
def allSpaces : List Space :=
  (List.range 8).flatMap fun r => (List.range 8).map fun c => ⟨(r : Int), (c : Int)⟩

/-- Promotion of a piece: `Piece.promote`. -/
def Piece.promote (p : Piece) : Option Kind → Piece
  | none => p
  | some k => ⟨k, p.player⟩

namespace Move

/-- Row difference of a move, `end.row - start.row`. -/
def dRow (m : Move) : Int := m.endS.row - m.start.row

/-- Column difference of a move, `end.col - start.col`. -/
def dCol (m : Move) : Int := m.endS.col - m.start.col

/-- Move.is_horizontal. -/
def is_horizontal (m : Move) : Bool := m.start.row == m.endS.row

/-- Move.is_vertical. -/
def is_vertical (m : Move) : Bool := m.start.col == m.endS.col

/-- Move.is_diagonal_45. -/
def is_diagonal_45 (m : Move) : Bool := m.dRow == m.dCol

/-- Move.is_diagonal_135. -/
def is_diagonal_135 (m : Move) : Bool := m.dRow == -m.dCol

/-- Python tuple order on spaces: lexicographic on `(row, col)`. -/
def spaceLe (s t : Space) : Bool :=
  (s.row < t.row) || (s.row == t.row && s.col ≤ t.col)

/-- Python `range(a, b)` over integers, as a list. -/
def intRange (a b : Int) : List Int :=
  (List.range (b - a).toNat).map fun i => a + (i : Int)

/-- Python `range(a, b, -1)` over integers, as a list. -/
def intRangeDown (a b : Int) : List Int :=
  (List.range (a - b).toNat).map fun i => a - (i : Int)

/-- Move.get_intervening_spaces: the squares strictly between start and
end, for horizontal, vertical and diagonal moves (first matching
direction in the source's dictionary order wins), else the empty list. -/
def get_intervening_spaces (m : Move) : List Space :=
  let lo := if spaceLe m.start m.endS then m.start else m.endS
  let hi := if spaceLe m.start m.endS then m.endS else m.start
  let rowRange := intRange (lo.row + 1) hi.row
  let colRange := intRange (lo.col + 1) hi.col
  let revColRange := intRangeDown (lo.col - 1) hi.col
  if m.is_horizontal then colRange.map fun c => ⟨lo.row, c⟩
  else if m.is_vertical then rowRange.map fun r => ⟨r, lo.col⟩
  else if m.is_diagonal_45 then
    (rowRange.zip colRange).map fun rc => ⟨rc.1, rc.2⟩
  else if m.is_diagonal_135 then
    (rowRange.zip revColRange).map fun rc => ⟨rc.1, rc.2⟩
  else []

/-- Move.pieces_intervene: some intervening square is occupied. -/
def pieces_intervene (b : Board) (m : Move) : Bool :=
  (m.get_intervening_spaces).any fun s => (b s).isSome

/-- Move.is_castle: a king move of exactly two columns. -/
def is_castle (m : Move) : Bool :=
  m.piece.kind == Kind.king && (m.dCol.natAbs == 2)

/-- Move.type_of_castle: queenside when the column decreases, else
kingside. -/
def type_of_castle (m : Move) : CastleSide :=
  if m.endS.col < m.start.col then .queenside else .kingside

/-- Move.castling_rook_space: the original square of the rook involved in
the castle (column 0 queenside, column 7 kingside, on the mover's back
rank). -/
def castling_rook_space (m : Move) : Space :=
  let backRank := m.piece.player.perspective 0
  match m.type_of_castle with
  | .queenside => ⟨backRank, 0⟩
  | .kingside => ⟨backRank, 7⟩

/-- Move.get_lost_castling_rights, translated verbatim: a king move loses
both rights, a rook move from column 0 the queenside right, a rook move
from any other column the kingside right, any other move nothing. -/
def get_lost_castling_rights (m : Move) : Rights :=
  if m.piece.kind == Kind.king then ⟨true, true⟩
  else if m.piece.kind == Kind.rook then
    if m.start.col == 0 then ⟨false, true⟩ else ⟨true, false⟩
  else ⟨false, false⟩

/-- Move.is_en_passant: a pawn changing column onto an empty square
(tested against the board as it stands when called). -/
def is_en_passant (b : Board) (m : Move) : Bool :=
  m.piece.kind == Kind.pawn && !(m.start.col == m.endS.col) && (b m.endS).isNone

/-- Move.is_capture: the destination is occupied, or the move is an en
passant capture. -/
def is_capture (b : Board) (m : Move) : Bool :=
  (b m.endS).isSome || m.is_en_passant b

/-- Move.pawn_capture: one step forward (by perspective) and one column
sideways. -/
def pawn_capture (m : Move) : Bool :=
  let oldRow := m.piece.player.perspective m.start.row
  let newRow := m.piece.player.perspective m.endS.row
  (newRow == oldRow + 1) && ((m.endS.col - m.start.col).natAbs == 1)

/-- Move.piece_can_be_promoted: a pawn landing on the far rank of its
side's perspective. -/
def piece_can_be_promoted (m : Move) : Bool :=
  m.piece.kind == Kind.pawn && (m.endS.row == m.piece.player.perspective 7)

/-- Move.knight_move: the multiset of absolute coordinate differences is
exactly two and one. -/
def knight_move (m : Move) : Bool :=
  (m.dRow.natAbs == 1 && m.dCol.natAbs == 2) ||
  (m.dRow.natAbs == 2 && m.dCol.natAbs == 1)

/-- Move.bishop_move. -/
def bishop_move (m : Move) : Bool := m.is_diagonal_45 || m.is_diagonal_135

/-- Move.rook_move. -/
def rook_move (m : Move) : Bool := m.is_horizontal || m.is_vertical

/-- Move.queen_move. -/
def queen_move (m : Move) : Bool := m.bishop_move || m.rook_move

/-- Move.get_en_passant, including the source's accidental-but-harmless
parenthesization: a non-pawn yields `False == 2`, hence no target. The
`next` on the generator of intervening squares faults on an empty
generator, modelled by the outer `none`. -/
def get_en_passant (m : Move) : Option (Option Space) :=
  if m.piece.kind == Kind.pawn && (m.dRow.natAbs == 2) then
    match m.get_intervening_spaces with
    | [] => none
    | s :: _ => some (some s)
  else some none

end Move

/-- Board style of `Game.board_type`. -/
inductive BoardType where
  | static | rotating
deriving DecidableEq, Repr

/-- One history snapshot `(board, player, castle_rights, en_passant)`
appended by the `Game` constructor. -/
structure StateEntry where
  board : Board
  player : Player
  rights : CRights
  ep : Option Space

/-- The `Game` state. The `players` tuple of the source is always
`main.PLAYERS = (white, black)`, so the current player is determined by
the parity of `move_num` and the tuple is not stored. -/
structure Game where
  board : Board
  boardType : BoardType
  castleRights : CRights
  enPassant : Option Space
  moveNum : Nat
  clock : Nat
  states : List StateEntry

/-- Current player, `players[move_num % 2]` for `players = (white, black)`. -/
def playerOf (n : Nat) : Player := if n % 2 == 0 then .white else .black

/-- Game.player. -/
def Game.player (g : Game) : Player := playerOf g.moveNum

/-- Game.other_player. -/
def Game.otherPlayer (g : Game) : Player := playerOf (g.moveNum + 1)

/-- Game.get_piece_spaces: the squares carrying a piece of the given
player, in the board dictionary's row-major order. -/
def get_piece_spaces (b : Board) (p : Player) : List Space :=
  allSpaces.filter fun s =>
    match b s with
    | some pc => pc.player == p
    | none => false

/-- Game.update_board, with an explicit recursion budget for the
castle-rook sub-move (the Python recursion depth is at most three). A
`none` result models the `AttributeError` fault raised when a castle is
applied while the castling rook's original square is empty
(`castle_rook` then builds a `Move` whose piece is `None`). -/
def updateBoardAux : Nat → Board → Move → Option Board
  | 0, _, _ => none
  | n + 1, b, m =>
    let base : Option Board :=
      if m.is_castle then
        let rs := m.castling_rook_space
        match b rs with
        | none => none
        | some p =>
          let re : Space :=
            ⟨rs.row, 4 + (if m.type_of_castle == CastleSide.kingside then 1 else -1)⟩
          updateBoardAux n b ⟨p, rs, re, none⟩
      else some b
    match base with
    | none => none
    | some b1 =>
      let b2 : Board :=
        if m.is_en_passant b1 then
          fun s => if s = ⟨m.start.row, m.endS.col⟩ then none else b1 s
        else b1
      let b3 : Board := fun s => if s = m.endS then some (m.piece.promote m.promotion) else b2 s
      some fun s => if s = m.start then none else b3 s

/-- Game.update_board at the budget sufficient for every input. -/
def Game.update_board (b : Board) (m : Move) : Option Board := updateBoardAux 3 b m

/-- The hypothetical branch of `Game.move`: a new game with the updated
board, the same castle rights, players and move number, and every other
constructor argument left at its default (`board_type='static'`,
`en_passant=None`, `prev_states=None`,
`moves_since_pawn_move_or_capture=0`). Since the en-passant argument is
absent, the constructor's normalization records `None` without calling
`find_moves`, so no fuel is needed. -/
def hypMove (g : Game) (m : Move) : Option Game :=
  match Game.update_board g.board m with
  | none => none
  | some b =>
    some { board := b, boardType := .static, castleRights := g.castleRights,
           enPassant := none, moveNum := g.moveNum, clock := 0,
           states := [⟨b, playerOf g.moveNum, g.castleRights, none⟩] }

/-- Requests of the mutually recursive legality/check nest: raw move
legality (`Move.is_legal`), the king predicate (`Move.king_move`), check
detection (`Game.king_is_in_check`), the scan of attacking moves inside
check detection, and `Move.piece_passes_through_check`'s scan of
intervening squares. -/
inductive Req where
  | legal : Game → Move → Req
  | kmove : Game → Move → Req
  | check : Game → Req
  | anyc : Game → Space → List Space → Req
  | passes : Game → Move → List Space → Req

/-- Move.pawn_move: capture shape when the destination holds an enemy
piece or is the live en-passant target, else a one- or two-step forward
move in the same column. -/
def pawn_moveB (g : Game) (m : Move) : Bool :=
  if (match g.board m.endS with
      | some p => !(p.player == m.piece.player)
      | none => false) || (some m.endS == g.enPassant) then
    m.pawn_capture
  else
    let oldRow := m.piece.player.perspective m.start.row
    let newRow := m.piece.player.perspective m.endS.row
    (m.endS.col == m.start.col) &&
      ((newRow == oldRow + 1) || ((oldRow == 1) && (newRow == oldRow + 2)))

/-- The mutually recursive nest `Move.is_legal` / `Move.king_move` /
`Game.king_is_in_check` / `Move.piece_passes_through_check`, defined as
one structurally recursive function over a fuel budget; `none` means the
budget ran out (modelling, at every budget, a Python computation that
recurses without bound) or a modelled fault occurred. -/
def engineF : Nat → Req → Option Bool
  | 0, _ => none
  | n + 1, .legal g m =>
    if (match g.board m.endS with
        | some p => p.player == m.piece.player
        | none => false)
       || (m.start == m.endS)
       || m.pieces_intervene g.board then some false
    else
      match m.piece.kind with
      | .pawn => some (pawn_moveB g m)
      | .knight => some m.knight_move
      | .bishop => some m.bishop_move
      | .rook => some m.rook_move
      | .queen => some m.queen_move
      | .king => engineF n (.kmove g m)
  | n + 1, .kmove g m =>
    if m.is_castle then
      if (m.start.row == m.endS.row) &&
         ((g.castleRights.get m.piece.player).has m.type_of_castle) then
        match engineF n (.check g) with
        | none => none
        | some chk =>
          if chk then some false
          else
            match engineF n (.passes g m m.get_intervening_spaces) with
            | none => none
            | some pp =>
              if pp then some false
              else some (!(Move.pieces_intervene g.board
                ⟨m.piece, m.start, m.castling_rook_space, m.promotion⟩))
      else some false
    else some (m.queen_move && decide (m.dRow.natAbs ≤ 1) && decide (m.dCol.natAbs ≤ 1))
  | n + 1, .check g =>
    match (get_piece_spaces g.board g.player).find? (fun s =>
        match g.board s with
        | some p => p.kind == Kind.king
        | none => false) with
    | none => none
    | some ks => engineF n (.anyc g ks (get_piece_spaces g.board g.otherPlayer))
  | n + 1, .anyc g ks spaces =>
    match spaces with
    | [] => some false
    | s :: rest =>
      match g.board s with
      | none => engineF n (.anyc g ks rest)
      | some p =>
        match engineF n (.legal g ⟨p, s, ks, none⟩) with
        | none => none
        | some b => if b then some true else engineF n (.anyc g ks rest)
  | n + 1, .passes g m spaces =>
    match spaces with
    | [] => some false
    | sp :: rest =>
      match hypMove g ⟨m.piece, m.start, sp, m.promotion⟩ with
      | none => none
      | some h =>
        match engineF n (.check h) with
        | none => none
        | some c => if c then some true else engineF n (.passes g m rest)

/-- Move.is_legal at a given fuel budget. -/
def is_legalF (fuel : Nat) (g : Game) (m : Move) : Option Bool :=
  engineF fuel (.legal g m)

/-- Game.king_is_in_check at a given fuel budget. -/
def king_is_in_checkF (fuel : Nat) (g : Game) : Option Bool :=
  engineF fuel (.check g)

/-- Promotion options; the source's `PROMOTION_OPTIONS` set, in a fixed
order (the claims never depend on the iteration order of the Python set). -/
def promotionList : List Kind := [.rook, .knight, .bishop, .queen]

/-- The candidate loop of `Game.find_moves` over (origin, destination)
pairs: keep a candidate when it is raw-legal and its hypothetical
application does not leave the mover's king in check; expand promotion
moves into one move per option. -/
def findAux (fuel : Nat) (g : Game) : List (Space × Space) → Option (List Move)
  | [] => some []
  | (old, nw) :: rest =>
    match g.board old with
    | none => findAux fuel g rest
    | some pc =>
      let m : Move := ⟨⟨pc.kind, g.player⟩, old, nw, none⟩
      (engineF fuel (.legal g m)).bind fun legal =>
        if legal then
          (hypMove g m).bind fun h =>
            (engineF fuel (.check h)).bind fun chk =>
              (findAux fuel g rest).bind fun tail =>
                if chk then some tail
                else some ((if m.piece_can_be_promoted then
                    promotionList.map fun pr => ⟨m.piece, m.start, m.endS, some pr⟩
                  else [m]) ++ tail)
        else findAux fuel g rest

/-- Game.find_moves at a given fuel budget, as the list of yielded moves
in generator order. -/
def find_movesF (fuel : Nat) (g : Game) : Option (List Move) :=
  findAux fuel g
    ((get_piece_spaces g.board g.player).flatMap fun o => allSpaces.map fun nw => (o, nw))

/-- Game.ep_capture_possible: `False` outright for an absent target, else
whether some generated move is a pawn move onto the target. -/
def ep_capture_possibleF (fuel : Nat) (g : Game) : Option Space → Option Bool
  | none => some false
  | some sp =>
    match find_movesF fuel g with
    | none => none
    | some ms => some (ms.any fun m => (m.piece.kind == Kind.pawn) && (m.endS == sp))

/-- Game.__init__: fills the fields and appends the history entry, whose
en-passant component is the constructor argument when
`ep_capture_possible` holds of it and `None` otherwise; the `en_passant`
attribute itself stores the argument unchanged. -/
def mkGameF (fuel : Nat) (board : Board) (bt : BoardType) (cr : CRights)
    (ep : Option Space) (prev : List StateEntry) (moveNum clock : Nat) : Option Game :=
  let core : Game := ⟨board, bt, cr, ep, moveNum, clock, []⟩
  match ep_capture_possibleF fuel core ep with
  | none => none
  | some poss =>
    some { core with
           states := prev ++ [⟨board, playerOf moveNum, cr, if poss then ep else none⟩] }

/-- Game.update_castle_rights: remove the lost rights from the given
player's entry. -/
def Game.update_castle_rights (cr : CRights) (p : Player) (lost : Rights) : CRights :=
  cr.setR p ((cr.get p).diff lost)

/-- The non-hypothetical branch of `Game.move`. Python mutates `self`
here: `self.moves_since_pawn_move_or_capture` is incremented (and reset
to zero on a pawn move or capture) in place, and the constructed game's
`self.states += [...]` extends the very list object the caller's
`states` attribute refers to. The result is therefore the pair (caller
after mutation, new game). -/
def movePy (fuel : Nat) (g : Game) (m : Move) : Option (Game × Game) :=
  let newClock := if (m.piece.kind == Kind.pawn) || m.is_capture g.board then 0 else g.clock + 1
  match Game.update_board g.board m with
  | none => none
  | some b =>
    match m.get_en_passant with
    | none => none
    | some ep =>
      match mkGameF fuel b g.boardType
          (Game.update_castle_rights g.castleRights g.player m.get_lost_castling_rights)
          ep g.states (g.moveNum + 1) newClock with
      | none => none
      | some ng => some ({ g with clock := newClock, states := ng.states }, ng)

/-- Sequential non-hypothetical application of a list of moves, following
the successor game of each `movePy` step. -/
def applyMovesF (fuel : Nat) (g : Game) : List Move → Option Game
  | [] => some g
  | m :: ms =>
    match movePy fuel g m with
    | none => none
    | some (_, ng) => applyMovesF fuel ng ms

/-- Empty rights for both players. -/
def noRights : CRights := ⟨⟨false, false⟩, ⟨false, false⟩⟩

/-- Full rights for both players, `main.CASTLE_RIGHTS`. -/
def fullRights : CRights := ⟨⟨true, true⟩, ⟨true, true⟩⟩

/-- A board holding only the two kings on their home squares. -/
def bKings : Board := fun s =>
  if s = ⟨0, 4⟩ then some ⟨.king, .white⟩
  else if s = ⟨7, 4⟩ then some ⟨.king, .black⟩
  else none

/-- A kings-only game, white to move, no rights. -/
def gKings : Game :=
  { board := bKings, boardType := .static, castleRights := noRights,
    enPassant := none, moveNum := 0, clock := 0,
    states := [⟨bKings, .white, noRights, none⟩] }

/-- A kings-only game with full castling rights, white to move. -/
def gKingsFull : Game :=
  { board := bKings, boardType := .static, castleRights := fullRights,
    enPassant := none, moveNum := 0, clock := 0,
    states := [⟨bKings, .white, fullRights, none⟩] }

/-- The board of the divergence position of claim C1: the white king has
walked to (7,6) while the black king sits unmoved on (7,4) with the
square between them empty; black's kingside rook has been captured
without black's kingside castle right ever being relinquished. -/
def bDiv : Board := fun s =>
  if s = ⟨7, 6⟩ then some ⟨.king, .white⟩
  else if s = ⟨7, 4⟩ then some ⟨.king, .black⟩
  else none

/-- Rights of the divergence position: black still holds kingside. -/
def crDiv : CRights := ⟨⟨false, false⟩, ⟨true, false⟩⟩

/-- The divergence position itself, white to move, exactly one king per
side. -/
def gDiv : Game :=
  { board := bDiv, boardType := .static, castleRights := crDiv,
    enPassant := none, moveNum := 0, clock := 0,
    states := [⟨bDiv, .white, crDiv, none⟩] }

/-- The attacking candidate built inside `king_is_in_check` at `gDiv`:
the black king stepping two columns onto the white king's square, which
`is_legal` routes through the castle branch of `king_move`. -/
def mvDiv : Move := ⟨⟨.king, .black⟩, ⟨7, 4⟩, ⟨7, 6⟩, none⟩

/-- A white rook moving from column 3 (neither rook's original column). -/
def mvRookMid : Move := ⟨⟨.rook, .white⟩, ⟨0, 3⟩, ⟨0, 5⟩, none⟩

/-- A plain white king step, e1 to f1. -/
def mvKingStep : Move := ⟨⟨.king, .white⟩, ⟨0, 4⟩, ⟨0, 5⟩, none⟩

/-- The kings-only game with a nonzero half-move clock. -/
def gClock5 : Game :=
  { board := bKings, boardType := .static, castleRights := noRights,
    enPassant := none, moveNum := 0, clock := 5,
    states := [⟨bKings, .white, noRights, none⟩] }

/-- Board for the C4 counterexample: both kings plus a white pawn that
has just advanced two squares to (3,3); no black pawn can capture en
passant. -/
def bEpNoCapture : Board := fun s =>
  if s = ⟨0, 4⟩ then some ⟨.king, .white⟩
  else if s = ⟨7, 4⟩ then some ⟨.king, .black⟩
  else if s = ⟨3, 3⟩ then some ⟨.pawn, .white⟩
  else none

/-- Board for the C4 witness: as above plus a black pawn on (3,4) able
to capture en passant onto (2,3). -/
def bEpCapture : Board := fun s =>
  if s = ⟨0, 4⟩ then some ⟨.king, .white⟩
  else if s = ⟨7, 4⟩ then some ⟨.king, .black⟩
  else if s = ⟨3, 3⟩ then some ⟨.pawn, .white⟩
  else if s = ⟨3, 4⟩ then some ⟨.pawn, .black⟩
  else none

/-- Board for the C9 witness: white king and both white rooks at home,
black king at home. -/
def bCastle : Board := fun s =>
  if s = ⟨0, 4⟩ then some ⟨.king, .white⟩
  else if s = ⟨0, 0⟩ then some ⟨.rook, .white⟩
  else if s = ⟨0, 7⟩ then some ⟨.rook, .white⟩
  else if s = ⟨7, 4⟩ then some ⟨.king, .black⟩
  else none

/-- Boards that agree everywhere except that some squares may hold, in
both boards, non-king pieces of the distinguished player `pl` (of
possibly different kinds). Replacing the kind a mover's piece is promoted
to relates the two hypothetical boards that `find_moves` respectively
tests and yields. -/
def BoardRel (pl : Player) (b1 b2 : Board) : Prop :=
  ∀ s, b1 s = b2 s ∨
    ∃ p1 p2, b1 s = some p1 ∧ b2 s = some p2 ∧
      p1.player = pl ∧ p2.player = pl ∧ p1.kind ≠ Kind.king ∧ p2.kind ≠ Kind.king

/-- Games equal in rights, en-passant target and move number whose boards
are related by `BoardRel` at the current player. -/
def GameRel (g1 g2 : Game) : Prop :=
  g1.castleRights = g2.castleRights ∧ g1.enPassant = g2.enPassant ∧
  g1.moveNum = g2.moveNum ∧ BoardRel (playerOf g1.moveNum) g1.board g2.board

/-- The board produced by `update_board` for a non-castle move: clear the
en-passant victim square when applicable, place the possibly promoted
piece, vacate the start square (the later dictionary assignment wins). -/
def noncastleUpd (b : Board) (m : Move) : Board :=
  fun s =>
    if s = m.start then none
    else if s = m.endS then some (m.piece.promote m.promotion)
    else if m.is_en_passant b then
      if s = ⟨m.start.row, m.endS.col⟩ then none else b s
    else b s

/-- Inversion of the `Game` constructor: every field of a successfully
constructed game, and the shape of the appended history entry. -/
theorem mkGameF_inv {fuel : Nat} {b : Board} {bt : BoardType} {cr : CRights}
    {ep : Option Space} {prev : List StateEntry} {mn ck : Nat} {g : Game}
    (h : mkGameF fuel b bt cr ep prev mn ck = some g) :
    g.board = b ∧ g.boardType = bt ∧ g.castleRights = cr ∧ g.enPassant = ep ∧
    g.moveNum = mn ∧ g.clock = ck ∧
    ∃ poss, ep_capture_possibleF fuel ⟨b, bt, cr, ep, mn, ck, []⟩ ep = some poss ∧
      g.states = prev ++ [⟨b, playerOf mn, cr, if poss then ep else none⟩] := by
  unfold mkGameF at h
  dsimp only at h
  cases hp : ep_capture_possibleF fuel ⟨b, bt, cr, ep, mn, ck, []⟩ ep with
  | none => rw [hp] at h; simp at h
  | some poss =>
    rw [hp] at h
    injection h with h2
    subst h2
    exact ⟨rfl, rfl, rfl, rfl, rfl, rfl, poss, rfl, rfl⟩

/-- Inversion of the non-hypothetical `Game.move`: the updated board, the
new en-passant argument, the constructor call for the successor game, and
the mutated caller. -/
theorem movePy_inv {fuel : Nat} {g : Game} {m : Move} {pg ng : Game}
    (h : movePy fuel g m = some (pg, ng)) :
    ∃ b ep,
      Game.update_board g.board m = some b ∧ m.get_en_passant = some ep ∧
      mkGameF fuel b g.boardType
        (Game.update_castle_rights g.castleRights g.player m.get_lost_castling_rights)
        ep g.states (g.moveNum + 1)
        (if (m.piece.kind == Kind.pawn) || m.is_capture g.board then 0 else g.clock + 1)
        = some ng ∧
      pg = { g with
             clock := if (m.piece.kind == Kind.pawn) || m.is_capture g.board then 0
                      else g.clock + 1,
             states := ng.states } := by
  unfold movePy at h
  dsimp only at h
  split at h
  next => simp at h
  next b hb =>
    split at h
    next => simp at h
    next ep he =>
      split at h
      next => simp at h
      next ng2 hg =>
        simp only [Option.some.injEq, Prod.mk.injEq] at h
        obtain ⟨h3, h4⟩ := h
        subst h3; subst h4
        exact ⟨b, ep, hb, he, hg, rfl⟩

/-- Reflexivity of the rights subset order. -/
theorem Rights.subsetOf_refl (r : Rights) : r.subsetOf r := ⟨id, id⟩

/-- Transitivity of the rights subset order. -/
theorem Rights.subsetOf_trans {r₁ r₂ r₃ : Rights}
    (h₁ : r₁.subsetOf r₂) (h₂ : r₂.subsetOf r₃) : r₁.subsetOf r₃ :=
  ⟨fun h => h₂.1 (h₁.1 h), fun h => h₂.2 (h₁.2 h)⟩

/-- Removing rights from one player's entry shrinks (weakly) both
players' entries. -/
theorem update_castle_rights_subset (cr : CRights) (pl : Player) (lost : Rights)
    (p : Player) :
    Rights.subsetOf ((Game.update_castle_rights cr pl lost).get p) (cr.get p) := by
  cases pl <;> cases p <;>
    simp only [Game.update_castle_rights, CRights.setR, CRights.get, Rights.diff,
      Rights.subsetOf, Bool.and_eq_true] <;>
    constructor <;> tauto

/-- One unrolling of the divergent cycle at `gDiv`: inside
`king_is_in_check`, the only attacking candidate is the black king's
two-column move onto the white king's square, whose legality check
re-enters `king_is_in_check` on the very same game through the castle
branch of `king_move`; with the inner call yielding no value, neither
does the outer one. -/
theorem engineF_gDiv_step (m : Nat) (h : engineF m (.check gDiv) = none) :
    engineF (m + 4) (.check gDiv) = none := by
  have h2 : engineF (m + 2) (.legal gDiv mvDiv) = none := by
    have e : engineF (m + 2) (.legal gDiv mvDiv) =
        match engineF m (.check gDiv) with
        | none => none
        | some chk =>
          if chk then some false
          else
            match engineF m (.passes gDiv mvDiv [⟨7, 5⟩]) with
            | none => none
            | some pp =>
              if pp then some false
              else some (!(Move.pieces_intervene gDiv.board
                ⟨mvDiv.piece, mvDiv.start, ⟨7, 7⟩, none⟩)) := rfl
    rw [e, h]
  have e2 : engineF (m + 4) (.check gDiv) =
      match engineF (m + 2) (.legal gDiv mvDiv) with
      | none => none
      | some b => if b then some true else engineF (m + 2) (.anyc gDiv ⟨7, 6⟩ []) := rfl
  rw [e2, h2]

/-- The divergence itself: no recursion budget suffices at `gDiv`. -/
theorem engineF_gDiv_none : ∀ n, engineF n (.check gDiv) = none := by
  intro n
  induction n using Nat.strong_induction_on with
  | _ n ih =>
    rcases n with _ | _ | _ | _ | m
    · rfl
    · rfl
    · rfl
    · rfl
    · exact engineF_gDiv_step m (ih m (by omega))

/-- Claim C1. The claim asserts that `king_is_in_check` terminates with a
value on every well-formed position, in particular when the opposing king
stands two columns from the current player's king on the same row with a
castle right still held. The code violates this: at `gDiv` (exactly one
king per side, black's kingside right held, the square between the kings
empty, white to move) `king_is_in_check` re-enters itself on the same
position through the castle branch of `king_move` and never returns — at
every recursion budget the fueled embedding yields no value. The claim is
right about the intended design (the spec demands totality and explicitly
forbids this mutual recursion), so this records a bug in the code. -/
theorem C1_king_is_in_check_diverges :
    (∀ n, king_is_in_checkF n gDiv = none) ∧
    gDiv.board ⟨7, 6⟩ = some ⟨.king, .white⟩ ∧
    gDiv.board ⟨7, 4⟩ = some ⟨.king, .black⟩ ∧
    ((get_piece_spaces gDiv.board Player.white).filter fun s =>
      match gDiv.board s with
      | some p => p.kind == Kind.king
      | none => false) = [⟨7, 6⟩] ∧
    ((get_piece_spaces gDiv.board Player.black).filter fun s =>
      match gDiv.board s with
      | some p => p.kind == Kind.king
      | none => false) = [⟨7, 4⟩] :=
  ⟨engineF_gDiv_none, rfl, rfl, by decide, by decide⟩

/-- Claim C2. The claim asserts that the non-hypothetical `move` is a
pure function of the position and move, leaving the receiver unchanged.
The code violates this: `self.moves_since_pawn_move_or_capture += 1`
mutates the caller and the constructor's `self.states += [...]` extends
the caller's aliased history list, so after the plain king step from the
kings-only game the caller's clock has become 1 and its history has
grown to two entries, and an immediately repeated call returns a game
whose clock is 2 where the first returned 1. -/
theorem C2_move_mutates_caller :
    ((movePy 5 gKings mvKingStep).map fun pr =>
      (pr.1.clock, pr.1.states.length, pr.2.clock)) = some (1, 2, 1) ∧
    ((movePy 5 gKings mvKingStep).bind fun pr =>
      (movePy 5 pr.1 mvKingStep).map fun pr2 => pr2.2.clock) = some 2 ∧
    gKings.clock = 0 ∧ gKings.states.length = 1 := by
  refine ⟨?_, ?_, rfl, rfl⟩ <;> decide

/-- Claim C3. The claim asserts a rook move loses the kingside right only
when it starts on column 7, and that a rook move from any column other
than 0 or 7 loses nothing. The code instead treats every rook move not
starting on column 0 as losing the kingside right: the white rook moving
from (0,3) relinquishes `{kingside}` rather than the empty set. -/
theorem C3_rook_mid_column_loses_kingside :
    mvRookMid.get_lost_castling_rights = ⟨true, false⟩ ∧
    mvRookMid.get_lost_castling_rights ≠ ⟨false, false⟩ := by
  exact ⟨rfl, by decide⟩

/-- Claim C5, counterexample. The claim asserts the hypothetical move
result keeps the caller's half-move clock; the code passes the
constructor default instead, so from a position with clock 5 the
hypothetical king step returns a position with clock 0. -/
theorem C5_counterexample_hypothetical_clock_reset :
    ((hypMove gClock5 mvKingStep).map Game.clock) = some 0 ∧ gClock5.clock = 5 := by
  exact ⟨by decide, rfl⟩

/-- Claim C5 as amended: a successful hypothetical application keeps the
caller's castle rights, move counter (hence side to move), but resets the
half-move clock to the constructor default 0, clears the en-passant
target, resets the board type to static, and restarts the history at the
single freshly appended snapshot; only the board carries the move's
effect. -/
theorem C5_amended_hypothetical_frame :
    ∀ g m h₁, hypMove g m = some h₁ →
      h₁.castleRights = g.castleRights ∧ h₁.moveNum = g.moveNum ∧
      h₁.player = g.player ∧ h₁.clock = 0 ∧ h₁.enPassant = none ∧
      h₁.boardType = BoardType.static ∧
      h₁.states = [⟨h₁.board, playerOf g.moveNum, g.castleRights, none⟩] := by
  intro g m h₁ h
  unfold hypMove at h
  split at h
  next => simp at h
  next b hb =>
    injection h with h2
    subst h2
    exact ⟨rfl, rfl, rfl, rfl, rfl, rfl, rfl⟩

/-- Witness for the amended claim C5 at the concrete kings-only game. -/
theorem C5_witness :
    ∃ h₁, hypMove gClock5 mvKingStep = some h₁ ∧
      h₁.castleRights = gClock5.castleRights ∧ h₁.moveNum = gClock5.moveNum ∧
      h₁.player = gClock5.player ∧ h₁.clock = 0 ∧ h₁.enPassant = none ∧
      h₁.boardType = BoardType.static ∧
      h₁.states = [⟨h₁.board, playerOf gClock5.moveNum, gClock5.castleRights, none⟩] := by
  have hs : (hypMove gClock5 mvKingStep).isSome = true := by decide
  cases h : hypMove gClock5 mvKingStep with
  | none => rw [h] at hs; simp at hs
  | some h₁ => exact ⟨h₁, rfl, C5_amended_hypothetical_frame gClock5 mvKingStep h₁ h⟩

/-- Claim C7: castle rights are monotonically non-increasing, both over a
single applied move (each successive position against its predecessor)
and over any sequence of applied moves. -/
theorem C7_castle_rights_monotone :
    (∀ fuel g m pg ng p, movePy fuel g m = some (pg, ng) →
      Rights.subsetOf (ng.castleRights.get p) (g.castleRights.get p)) ∧
    (∀ fuel ms g g' p, applyMovesF fuel g ms = some g' →
      Rights.subsetOf (g'.castleRights.get p) (g.castleRights.get p)) := by
  have step : ∀ fuel g m pg ng p, movePy fuel g m = some (pg, ng) →
      Rights.subsetOf (ng.castleRights.get p) (g.castleRights.get p) := by
    intro fuel g m pg ng p h
    obtain ⟨b, ep, hb, he, hg, hpg⟩ := movePy_inv h
    have hcr := (mkGameF_inv hg).2.2.1
    rw [hcr]
    exact update_castle_rights_subset g.castleRights g.player m.get_lost_castling_rights p
  refine ⟨step, ?_⟩
  intro fuel ms
  induction ms with
  | nil =>
    intro g g' p h
    unfold applyMovesF at h
    injection h with h2
    subst h2
    exact Rights.subsetOf_refl _
  | cons m ms ih =>
    intro g g' p h
    unfold applyMovesF at h
    split at h
    next => simp at h
    next pg1 ng1 hm =>
      exact Rights.subsetOf_trans (ih ng1 g' p h) (step fuel g m pg1 ng1 p hm)

/-- Witness for claim C7: the king step from the full-rights kings-only
game, as a one-step application and as a one-element sequence. -/
theorem C7_witness :
    ∃ pg ng, movePy 5 gKingsFull mvKingStep = some (pg, ng) ∧
      Rights.subsetOf (ng.castleRights.get Player.white)
        (gKingsFull.castleRights.get Player.white) ∧
      ∃ g', applyMovesF 5 gKingsFull [mvKingStep] = some g' ∧
        Rights.subsetOf (g'.castleRights.get Player.black)
          (gKingsFull.castleRights.get Player.black) := by
  have hs : (movePy 5 gKingsFull mvKingStep).isSome = true := by decide
  cases h : movePy 5 gKingsFull mvKingStep with
  | none => rw [h] at hs; simp at hs
  | some pr =>
    obtain ⟨pg, ng⟩ := pr
    refine ⟨pg, ng, rfl, C7_castle_rights_monotone.1 5 gKingsFull mvKingStep pg ng _ h, ?_⟩
    have hseq : applyMovesF 5 gKingsFull [mvKingStep] = some ng := by
      unfold applyMovesF
      rw [h]
      rfl
    exact ⟨ng, hseq, C7_castle_rights_monotone.2 5 [mvKingStep] gKingsFull ng _ hseq⟩

/-- Claim C8: the successor position's half-move clock is 0 exactly when
the applied move is a pawn move or a capture (destination occupied, or an
en-passant capture), and the caller's clock plus one otherwise. -/
theorem C8_half_move_clock :
    ∀ fuel g m pg ng, movePy fuel g m = some (pg, ng) →
      ng.clock = if m.piece.kind = Kind.pawn ∨ (g.board m.endS).isSome = true ∨
                    m.is_en_passant g.board = true
                 then 0 else g.clock + 1 := by
  intro fuel g m pg ng h
  obtain ⟨b, ep, hb, he, hg, hpg⟩ := movePy_inv h
  have hck := (mkGameF_inv hg).2.2.2.2.2.1
  rw [hck]
  simp only [Move.is_capture, Bool.or_eq_true, beq_iff_eq]

/-- Witness for claim C8: the quiet king step from the kings-only game
advances the clock from 0 to 1. -/
theorem C8_witness :
    ∃ pg ng, movePy 5 gKings mvKingStep = some (pg, ng) ∧
      ng.clock = (if mvKingStep.piece.kind = Kind.pawn ∨
                     (gKings.board mvKingStep.endS).isSome = true ∨
                     mvKingStep.is_en_passant gKings.board = true
                  then 0 else gKings.clock + 1) ∧ ng.clock = 1 := by
  have hs : (movePy 5 gKings mvKingStep).isSome = true := by decide
  cases h : movePy 5 gKings mvKingStep with
  | none => rw [h] at hs; simp at hs
  | some pr =>
    obtain ⟨pg, ng⟩ := pr
    have hth := C8_half_move_clock 5 gKings mvKingStep pg ng h
    exact ⟨pg, ng, rfl, hth, by rw [hth]; decide⟩

/-- Claim C10: every successfully constructed hypothetical position has
an absent en-passant target, and `ep_capture_possible` decides an absent
target as false at recursion budget zero, that is, without ever invoking
`find_moves`; the hypothetical constructor is itself a total function of
the board update. -/
theorem C10_hypothetical_no_ep_no_regeneration :
    (∀ g m h₁, hypMove g m = some h₁ → h₁.enPassant = none) ∧
    (∀ g, ep_capture_possibleF 0 g none = some false) := by
  constructor
  · intro g m h₁ h
    unfold hypMove at h
    split at h
    next => simp at h
    next b hb =>
      injection h with h2
      subst h2
      rfl
  · intro g
    rfl

/-- Witness for claim C10 at the kings-only game. -/
theorem C10_witness :
    ∃ h₁, hypMove gKings mvKingStep = some h₁ ∧ h₁.enPassant = none ∧
      ep_capture_possibleF 0 gKings none = some false := by
  have hs : (hypMove gKings mvKingStep).isSome = true := by decide
  cases h : hypMove gKings mvKingStep with
  | none => rw [h] at hs; simp at hs
  | some h₁ =>
    exact ⟨h₁, rfl, C10_hypothetical_no_ep_no_regeneration.1 gKings mvKingStep h₁ h,
      C10_hypothetical_no_ep_no_regeneration.2 gKings⟩

/-- Claim C9: applying a castle updates the board canonically. For the
moving side with back rank `r = perspective 0`: a kingside castle
(columns `kc, rc0, rc1 = 6, 7, 5`) puts the king on column 6 and the
rook on column 5 and empties columns 4 and 7; a queenside castle
(columns `2, 0, 3`) puts the king on column 2 and the rook on column 3
and empties columns 4 and 0. The rook is required to stand on its
original square (otherwise the Python code faults in `castle_rook`). -/
theorem C9_castle_board_update (p : Player) (side : CastleSide) (b : Board)
    (kc rc0 rc1 : Int)
    (hcols : (kc, rc0, rc1) = match side with
      | CastleSide.kingside => ((6 : Int), (7 : Int), (5 : Int))
      | CastleSide.queenside => ((2 : Int), (0 : Int), (3 : Int)))
    (hr : b ⟨p.perspective 0, rc0⟩ = some ⟨.rook, p⟩) :
    ∃ b2, Game.update_board b
        ⟨⟨.king, p⟩, ⟨p.perspective 0, 4⟩, ⟨p.perspective 0, kc⟩, none⟩ = some b2 ∧
      b2 ⟨p.perspective 0, kc⟩ = some ⟨.king, p⟩ ∧
      b2 ⟨p.perspective 0, rc1⟩ = some ⟨.rook, p⟩ ∧
      b2 ⟨p.perspective 0, 4⟩ = none ∧
      b2 ⟨p.perspective 0, rc0⟩ = none := by
  cases side <;>
    (simp only [Prod.mk.injEq] at hcols
     obtain ⟨h1, h2, h3⟩ := hcols
     subst h1; subst h2; subst h3) <;>
    (unfold Game.update_board updateBoardAux
     simp only [Move.is_castle, Move.dCol, Move.is_en_passant, Move.castling_rook_space,
       Move.type_of_castle, Piece.promote]
     norm_num
     rw [hr]
     simp [updateBoardAux, Move.is_castle, Move.dCol, Move.is_en_passant, Piece.promote,
       Move.castling_rook_space, Move.type_of_castle])

/-- Witness for claim C9: white castles kingside on the board with both
white rooks and both kings at home. -/
theorem C9_witness :
    ∃ b2, Game.update_board bCastle
        ⟨⟨.king, .white⟩, ⟨Player.white.perspective 0, 4⟩,
          ⟨Player.white.perspective 0, 6⟩, none⟩ = some b2 ∧
      b2 ⟨Player.white.perspective 0, 6⟩ = some ⟨.king, .white⟩ ∧
      b2 ⟨Player.white.perspective 0, 5⟩ = some ⟨.rook, .white⟩ ∧
      b2 ⟨Player.white.perspective 0, 4⟩ = none ∧
      b2 ⟨Player.white.perspective 0, 7⟩ = none :=
  C9_castle_board_update .white .kingside bCastle 6 7 5 rfl (by decide)

set_option maxRecDepth 100000 in
/-- Claim C4, counterexample. The claim asserts the exposed `en_passant`
attribute is normalized to absent when no pawn can capture onto it. In
the constructed position with a lone white pawn having just advanced two
squares to (3,3) and no black pawn anywhere, no pawn of the side to move
can capture onto (2,3), yet the constructed position's `en_passant`
attribute still holds (2,3); only the recorded history entry is
normalized to absent. -/
theorem C4_counterexample_attribute_not_normalized :
    ((mkGameF 12 bEpNoCapture .static noRights (some ⟨2, 3⟩) [] 1 0).map Game.enPassant)
      = some (some ⟨2, 3⟩) ∧
    ((mkGameF 12 bEpNoCapture .static noRights (some ⟨2, 3⟩) [] 1 0).bind fun g =>
      (find_movesF 12 g).map fun ms =>
        ms.any fun m => (m.piece.kind == Kind.pawn) && (m.endS == ⟨2, 3⟩)) = some false ∧
    ((mkGameF 12 bEpNoCapture .static noRights (some ⟨2, 3⟩) [] 1 0).map fun g =>
      (g.states.getLast?).map StateEntry.ep) = some (some none) := by
  refine ⟨?_, ?_, ?_⟩ <;> decide

/-- Claim C4 as amended: on construction the en-passant normalization
applies to the appended history snapshot, not to the `en_passant`
attribute. The attribute stores the constructor argument unchanged, and
the latest history entry's en-passant component records the argument
exactly when some generated move of the side to move is a pawn move onto
that square, and is absent otherwise (in particular it is absent for an
absent argument). -/
theorem C4_amended_history_entry_normalized :
    ∀ fuel b bt cr ep prev mn ck g, mkGameF fuel b bt cr ep prev mn ck = some g →
      g.enPassant = ep ∧
      ∃ entry, g.states.getLast? = some entry ∧
        ((ep = none ∧ entry.ep = none) ∨
          ∃ sp ms, ep = some sp ∧
            find_movesF fuel ⟨b, bt, cr, ep, mn, ck, []⟩ = some ms ∧
            entry.ep = (if ms.any fun m => (m.piece.kind == Kind.pawn) && (m.endS == sp)
              then some sp else none)) := by
  intro fuel b bt cr ep prev mn ck g h
  obtain ⟨hb, hbt, hcr, hep, hmn, hck, poss, hposs, hstates⟩ := mkGameF_inv h
  refine ⟨hep, ⟨b, playerOf mn, cr, if poss then ep else none⟩, ?_, ?_⟩
  · rw [hstates, List.getLast?_concat]
  · cases ep with
    | none =>
      left
      refine ⟨rfl, ?_⟩
      have hfalse : poss = false := by
        unfold ep_capture_possibleF at hposs
        injection hposs with h2
        exact h2.symm
      rw [hfalse]
      rfl
    | some sp =>
      unfold ep_capture_possibleF at hposs
      split at hposs
      next heq => exact absurd heq (by simp)
      next ms hms =>
        injection hms with hms2
        subst hms2
        split at hposs
        next => simp at hposs
        next ms2 hms2 =>
          simp only [Option.some.injEq] at hposs
          right
          refine ⟨sp, ms2, rfl, hms2, ?_⟩
          rw [← hposs]

set_option maxRecDepth 100000 in
/-- Witness for the amended claim C4: with a black pawn on (3,4) the
en-passant capture onto (2,3) exists, and the constructed position's
attribute and recorded history entry both hold (2,3) — the capture
forces the entry to record the target. -/
theorem C4_witness :
    ∃ g entry, mkGameF 12 bEpCapture .static noRights (some ⟨2, 3⟩) [] 1 0 = some g ∧
      g.enPassant = some ⟨2, 3⟩ ∧
      g.states.getLast? = some entry ∧
      (((some ⟨2, 3⟩ : Option Space) = none ∧ entry.ep = none) ∨
        ∃ sp ms, (some ⟨2, 3⟩ : Option Space) = some sp ∧
          find_movesF 12 ⟨bEpCapture, .static, noRights, some ⟨2, 3⟩, 1, 0, []⟩ = some ms ∧
          entry.ep = (if ms.any fun m => (m.piece.kind == Kind.pawn) && (m.endS == sp)
            then some sp else none)) ∧
      entry.ep = some ⟨2, 3⟩ := by
  have hs : (mkGameF 12 bEpCapture .static noRights (some ⟨2, 3⟩) [] 1 0).isSome = true := by
    decide
  have hval : ((mkGameF 12 bEpCapture .static noRights (some ⟨2, 3⟩) [] 1 0).map fun g =>
      (g.states.getLast?).map StateEntry.ep) = some (some (some ⟨2, 3⟩)) := by decide
  cases h : mkGameF 12 bEpCapture .static noRights (some ⟨2, 3⟩) [] 1 0 with
  | none => rw [h] at hs; simp at hs
  | some g =>
    obtain ⟨h1, entry, hent, hdisj⟩ := C4_amended_history_entry_normalized 12 bEpCapture
      .static noRights (some ⟨2, 3⟩) [] 1 0 g h
    rw [h] at hval
    simp only [Option.map_some'] at hval
    rw [hent] at hval
    simp only [Option.map_some', Option.some.injEq] at hval
    exact ⟨g, entry, rfl, h1, hent, hdisj, hval⟩


/-- Congruence of `List.find?` under pointwise equal predicates. -/
theorem find?_congruent {α : Type} (l : List α) (p q : α → Bool)
    (h : ∀ a ∈ l, p a = q a) : l.find? p = l.find? q := by
  induction l with
  | nil => rfl
  | cons a l ih =>
    simp only [List.find?]
    rw [h a (by simp)]
    cases hqa : q a with
    | true => rfl
    | false => exact ih fun a ha => h a (List.mem_cons_of_mem _ ha)

/-- Related boards occupy the same squares. -/
theorem BoardRel.isSome_eq {pl : Player} {b1 b2 : Board} (h : BoardRel pl b1 b2) (s : Space) :
    (b1 s).isSome = (b2 s).isSome := by
  rcases h s with he | ⟨p1, p2, h1, h2, _⟩
  · rw [he]
  · rw [h1, h2]
    rfl

/-- Related boards have the same piece squares for every player. -/
theorem BoardRel.spaces_eq {pl : Player} {b1 b2 : Board} (h : BoardRel pl b1 b2) (q : Player) :
    get_piece_spaces b1 q = get_piece_spaces b2 q := by
  unfold get_piece_spaces
  apply List.filter_congr
  intro s _
  rcases h s with he | ⟨p1, p2, h1, h2, hp1, hp2, _⟩
  · rw [he]
  · rw [h1, h2]
    simp [hp1, hp2]

/-- Related boards agree on every square held by the other side. -/
theorem BoardRel.other_eq {pl : Player} {b1 b2 : Board} (h : BoardRel pl b1 b2)
    {q : Player} (hq : q ≠ pl) {s : Space} (hs : s ∈ get_piece_spaces b1 q) :
    b1 s = b2 s := by
  rcases h s with he | ⟨p1, p2, h1, h2, hp1, hp2, _⟩
  · exact he
  · exfalso
    unfold get_piece_spaces at hs
    rw [List.mem_filter] at hs
    rw [h1] at hs
    simp only [beq_iff_eq] at hs
    exact hq (hs.2 ▸ hp1 ▸ rfl)

/-- Turn parity: the player after a move differs from the mover. -/
theorem playerOf_succ_ne (n : Nat) : playerOf (n + 1) ≠ playerOf n := by
  unfold playerOf
  rcases Nat.mod_two_eq_zero_or_one n with h | h <;>
    simp [h, Nat.add_mod]

/-- Related boards see the same intervening pieces. -/
theorem BoardRel.intervene_eq {pl : Player} {b1 b2 : Board} (h : BoardRel pl b1 b2) (m : Move) :
    Move.pieces_intervene b1 m = Move.pieces_intervene b2 m := by
  unfold Move.pieces_intervene
  have he : (fun s => (b1 s).isSome) = fun s => (b2 s).isSome := by
    funext s; exact h.isSome_eq s
  rw [he]

/-- Related boards agree on en-passant status of every move. -/
theorem BoardRel.ep_eq {pl : Player} {b1 b2 : Board} (h : BoardRel pl b1 b2) (m : Move) :
    m.is_en_passant b1 = m.is_en_passant b2 := by
  unfold Move.is_en_passant
  rcases h m.endS with he | ⟨p1, p2, h1, h2, _⟩
  · rw [he]
  · rw [h1, h2]
    rfl

/-- Related games agree on the pawn movement predicate. -/
theorem GameRel.pawn_eq {g1 g2 : Game} (h : GameRel g1 g2) (m : Move) :
    pawn_moveB g1 m = pawn_moveB g2 m := by
  obtain ⟨hcr, hep, hmn, hb⟩ := h
  unfold pawn_moveB
  rw [hep]
  rcases hb m.endS with he | ⟨p1, p2, h1, h2, hp1, hp2, _⟩
  · rw [he]
  · rw [h1, h2]
    dsimp only
    rw [hp1, hp2]

/-- Related boards find the same king square (differing squares hold
non-kings in both boards). -/
theorem BoardRel.kingfind_eq {pl : Player} {b1 b2 : Board} (h : BoardRel pl b1 b2) :
    ((get_piece_spaces b1 pl).find? fun s =>
      match b1 s with
      | some p => p.kind == Kind.king
      | none => false) =
    ((get_piece_spaces b2 pl).find? fun s =>
      match b2 s with
      | some p => p.kind == Kind.king
      | none => false) := by
  rw [h.spaces_eq pl]
  apply find?_congruent
  intro s _
  rcases h s with he | ⟨p1, p2, h1, h2, _, _, hk1, hk2⟩
  · rw [he]
  · rw [h1, h2]
    dsimp only
    simp [hk1, hk2]

/-- The board update of a non-castle move, in closed form. -/
theorem update_board_noncastle (b : Board) (m : Move) (hnc : m.is_castle = false) :
    Game.update_board b m = some (noncastleUpd b m) := by
  unfold Game.update_board updateBoardAux
  rw [hnc]
  simp only [Bool.false_eq_true, if_false]
  refine congrArg some ?_
  funext s
  unfold noncastleUpd
  by_cases h1 : s = m.start
  · simp [h1]
  · by_cases h2 : s = m.endS
    · simp [h1, h2]
    · by_cases h3 : m.is_en_passant b
      · simp [h1, h2, h3]
      · simp [h1, h2, h3]

/-- A non-castle update preserves relatedness of boards. -/
theorem noncastleUpd_rel {pl : Player} {b1 b2 : Board} (h : BoardRel pl b1 b2) (m : Move) :
    BoardRel pl (noncastleUpd b1 m) (noncastleUpd b2 m) := by
  intro s
  unfold noncastleUpd
  by_cases h1 : s = m.start
  · left; simp [h1]
  · by_cases h2 : s = m.endS
    · left; simp [h1, h2]
    · rw [h.ep_eq m]
      by_cases h3 : m.is_en_passant b2
      · by_cases h4 : s = ⟨m.start.row, m.endS.col⟩
        · left; simp [h1, h2, h3, h4]
        · rcases h s with he | ⟨p1, p2, hp1, hp2, hrest⟩
          · left; simp [h1, h2, h3, h4, he]
          · right
            exact ⟨p1, p2, by simp [h1, h2, h3, h4, hp1],
              by simp [h1, h2, h3, h4, hp2], hrest⟩
      · rcases h s with he | ⟨p1, p2, hp1, hp2, hrest⟩
        · left; simp [h1, h2, h3, he]
        · right
          exact ⟨p1, p2, by simp [h1, h2, h3, hp1], by simp [h1, h2, h3, hp2], hrest⟩

/-- The hypothetical successor of a non-castle move, in closed form. -/
theorem hypMove_noncastle (g : Game) (m : Move) (hnc : m.is_castle = false) :
    hypMove g m = some
      { board := noncastleUpd g.board m, boardType := .static,
        castleRights := g.castleRights, enPassant := none, moveNum := g.moveNum,
        clock := 0,
        states := [⟨noncastleUpd g.board m, playerOf g.moveNum, g.castleRights, none⟩] } := by
  unfold hypMove
  rw [update_board_noncastle g.board m hnc]

/-- A castle-shaped move on one row crosses exactly the single square
between the king's start and end columns. -/
theorem castle_intervening_cols (m : Move) (hr : m.start.row = m.endS.row)
    (hc : m.dCol.natAbs = 2) :
    m.get_intervening_spaces = [⟨m.start.row, min m.start.col m.endS.col + 1⟩] := by
  have h2 : m.endS.col = m.start.col + 2 ∨ m.endS.col = m.start.col - 2 := by
    unfold Move.dCol at hc; omega
  unfold Move.get_intervening_spaces
  rcases h2 with h2 | h2
  · have hle : Move.spaceLe m.start m.endS = true := by
      unfold Move.spaceLe
      simp [hr, h2]
    have hmin : min m.start.col m.endS.col = m.start.col := by omega
    simp only [hle, if_true, Move.is_horizontal, hr, beq_self_eq_true, hmin]
    simp [Move.intRange, h2, hr, List.range_succ]
  · have hle : Move.spaceLe m.start m.endS = false := by
      unfold Move.spaceLe
      simp [hr, h2]
    have hmin : min m.start.col m.endS.col = m.endS.col := by omega
    simp only [hle, Bool.false_eq_true, if_false, Move.is_horizontal, hr,
      beq_self_eq_true, if_true, hmin]
    unfold Move.intRange
    rw [show (m.start.col - (m.endS.col + 1)).toNat = 1 from by omega]
    simp [List.range_succ, h2]

/-- The single square a castling king crosses never yields another
castle-shaped move from the king's start. -/
theorem castle_sub_not_castle (m : Move) (hr : m.start.row = m.endS.row)
    (hc : m.dCol.natAbs = 2) :
    ∀ sp ∈ m.get_intervening_spaces, ∀ pr,
      Move.is_castle ⟨m.piece, m.start, sp, pr⟩ = false := by
  rw [castle_intervening_cols m hr hc]
  intro sp hsp pr
  simp only [List.mem_singleton] at hsp
  subst hsp
  have hd : m.dCol = m.endS.col - m.start.col := rfl
  have h1 : ((min m.start.col m.endS.col + 1) - m.start.col).natAbs ≠ 2 := by omega
  simp [Move.is_castle, Move.dCol, h1]

set_option maxHeartbeats 1000000 in
/-- Replacing, on related games, pieces of the side to move by pieces of
the same side and a different non-king kind changes nothing observable to
the legality/check nest: raw legality, the king predicate, check
detection, the attacking-move scan (over squares on which the boards
agree) and the passing-through-check scan (over non-castle-shaped
intermediate moves) all coincide at every budget. -/
theorem engineF_congr : ∀ n (g1 g2 : Game), GameRel g1 g2 →
    (∀ m, engineF n (.legal g1 m) = engineF n (.legal g2 m)) ∧
    (∀ m, engineF n (.kmove g1 m) = engineF n (.kmove g2 m)) ∧
    (engineF n (.check g1) = engineF n (.check g2)) ∧
    (∀ ks l, (∀ s ∈ l, g1.board s = g2.board s) →
      engineF n (.anyc g1 ks l) = engineF n (.anyc g2 ks l)) ∧
    (∀ m l, (∀ sp ∈ l, Move.is_castle ⟨m.piece, m.start, sp, m.promotion⟩ = false) →
      engineF n (.passes g1 m l) = engineF n (.passes g2 m l)) := by
  intro n
  induction n with
  | zero =>
    intro g1 g2 hrel
    exact ⟨fun m => rfl, fun m => rfl, rfl, fun ks l h => rfl, fun m l h => rfl⟩
  | succ n ih =>
    intro g1 g2 hrel
    obtain ⟨hcr, hep, hmn, hb⟩ := hrel
    have hrel2 : GameRel g1 g2 := ⟨hcr, hep, hmn, hb⟩
    have ihl := (ih g1 g2 hrel2).1
    have ihk := (ih g1 g2 hrel2).2.1
    have ihc := (ih g1 g2 hrel2).2.2.1
    have iha := (ih g1 g2 hrel2).2.2.2.1
    have ihp := (ih g1 g2 hrel2).2.2.2.2
    refine ⟨?_, ?_, ?_, ?_, ?_⟩
    · intro m
      have hocc : (match g1.board m.endS with
          | some p => p.player == m.piece.player
          | none => false) = (match g2.board m.endS with
          | some p => p.player == m.piece.player
          | none => false) := by
        rcases hb m.endS with he | ⟨p1, p2, h1, h2, hp1, hp2, _⟩
        · rw [he]
        · rw [h1, h2]
          dsimp only
          rw [hp1, hp2]
      simp only [engineF]
      rw [hocc, hb.intervene_eq m]
      cases hC : ((match g2.board m.endS with
          | some p => p.player == m.piece.player
          | none => false) || (m.start == m.endS) || Move.pieces_intervene g2.board m) with
      | true => simp only [if_true]
      | false =>
        simp only [Bool.false_eq_true, if_false]
        cases hk : m.piece.kind
        · exact congrArg some (hrel2.pawn_eq m)
        · rfl
        · rfl
        · rfl
        · rfl
        · exact ihk m
    · intro m
      simp only [engineF]
      cases hcas : m.is_castle with
      | false => simp only [Bool.false_eq_true, if_false]
      | true =>
        simp only [if_true]
        rw [hcr]
        cases hC : ((m.start.row == m.endS.row) &&
            ((g2.castleRights.get m.piece.player).has m.type_of_castle)) with
        | false => simp only [Bool.false_eq_true, if_false]
        | true =>
          simp only [if_true]
          have hrow : m.start.row = m.endS.row := by
            have h1 := (Bool.and_eq_true _ _).mp hC
            exact beq_iff_eq.mp h1.1
          have hc2 : m.dCol.natAbs = 2 := by
            unfold Move.is_castle at hcas
            have h1 := (Bool.and_eq_true _ _).mp hcas
            exact beq_iff_eq.mp h1.2
          have hsub := castle_sub_not_castle m hrow hc2
          rw [ihc, ihp m m.get_intervening_spaces
            (fun sp hsp => hsub sp hsp m.promotion), hb.intervene_eq]
    · have hb2 : BoardRel (playerOf g2.moveNum) g1.board g2.board := by
        rw [← hmn]; exact hb
      simp only [engineF, Game.player, Game.otherPlayer]
      rw [hmn, hb2.kingfind_eq, hb2.spaces_eq (playerOf (g2.moveNum + 1))]
      set X := (get_piece_spaces g2.board (playerOf g2.moveNum)).find? fun s =>
        match g2.board s with
        | some p => p.kind == Kind.king
        | none => false with hX
      clear_value X
      cases X with
      | none => rfl
      | some ks =>
        refine iha ks (get_piece_spaces g2.board (playerOf (g2.moveNum + 1))) ?_
        intro s hs
        refine hb2.other_eq (playerOf_succ_ne g2.moveNum) ?_
        rw [hb2.spaces_eq (playerOf (g2.moveNum + 1))]
        exact hs
    · intro ks l hl
      cases l with
      | nil => rfl
      | cons s rest =>
        simp only [engineF]
        have hbs : g1.board s = g2.board s := hl s (by simp)
        rw [hbs]
        cases hgs : g2.board s with
        | none => exact iha ks rest fun t ht => hl t (List.mem_cons_of_mem _ ht)
        | some p =>
          dsimp only
          rw [ihl ⟨p, s, ks, none⟩]
          set Y := engineF n (.legal g2 ⟨p, s, ks, none⟩) with hY
          clear_value Y
          cases Y with
          | none => rfl
          | some bv =>
            cases bv with
            | true => rfl
            | false => exact iha ks rest fun t ht => hl t (List.mem_cons_of_mem _ ht)
    · intro m l hl
      cases l with
      | nil => rfl
      | cons sp rest =>
        simp only [engineF]
        have hnc : Move.is_castle ⟨m.piece, m.start, sp, m.promotion⟩ = false :=
          hl sp (by simp)
        rw [hypMove_noncastle g1 _ hnc, hypMove_noncastle g2 _ hnc]
        dsimp only
        have hcheck : engineF n (.check
            { board := noncastleUpd g1.board ⟨m.piece, m.start, sp, m.promotion⟩,
              boardType := .static, castleRights := g1.castleRights,
              enPassant := none, moveNum := g1.moveNum, clock := 0,
              states := [⟨noncastleUpd g1.board ⟨m.piece, m.start, sp, m.promotion⟩,
                playerOf g1.moveNum, g1.castleRights, none⟩] }) = engineF n (.check
            { board := noncastleUpd g2.board ⟨m.piece, m.start, sp, m.promotion⟩,
              boardType := .static, castleRights := g2.castleRights,
              enPassant := none, moveNum := g2.moveNum, clock := 0,
              states := [⟨noncastleUpd g2.board ⟨m.piece, m.start, sp, m.promotion⟩,
                playerOf g2.moveNum, g2.castleRights, none⟩] }) :=
          (ih
            { board := noncastleUpd g1.board ⟨m.piece, m.start, sp, m.promotion⟩,
              boardType := .static, castleRights := g1.castleRights,
              enPassant := none, moveNum := g1.moveNum, clock := 0,
              states := [⟨noncastleUpd g1.board ⟨m.piece, m.start, sp, m.promotion⟩,
                playerOf g1.moveNum, g1.castleRights, none⟩] }
            { board := noncastleUpd g2.board ⟨m.piece, m.start, sp, m.promotion⟩,
              boardType := .static, castleRights := g2.castleRights,
              enPassant := none, moveNum := g2.moveNum, clock := 0,
              states := [⟨noncastleUpd g2.board ⟨m.piece, m.start, sp, m.promotion⟩,
                playerOf g2.moveNum, g2.castleRights, none⟩] }
            ⟨hcr, rfl, hmn, noncastleUpd_rel hb _⟩).2.2.1
        rw [hcheck]
        set Z := engineF n (.check
            { board := noncastleUpd g2.board ⟨m.piece, m.start, sp, m.promotion⟩,
              boardType := .static, castleRights := g2.castleRights,
              enPassant := none, moveNum := g2.moveNum, clock := 0,
              states := [⟨noncastleUpd g2.board ⟨m.piece, m.start, sp, m.promotion⟩,
                playerOf g2.moveNum, g2.castleRights, none⟩] }) with hZ
        clear_value Z
        cases Z with
        | none => rfl
        | some cv =>
          cases cv with
          | true => rfl
          | false => exact ihp m rest fun t ht => hl t (List.mem_cons_of_mem _ ht)

/-- Every move in the result of the candidate loop descends from a base
candidate that passed raw legality and whose hypothetical application
left the mover's king out of check; the yielded move is that candidate
itself or one of its promotion expansions. -/
theorem findAux_mem : ∀ (fuel : Nat) (g : Game) (cands : List (Space × Space))
    (res : List Move), findAux fuel g cands = some res → ∀ m ∈ res,
    ∃ old nw pc, g.board old = some pc ∧
      engineF fuel (.legal g ⟨⟨pc.kind, g.player⟩, old, nw, none⟩) = some true ∧
      (∃ h0, hypMove g ⟨⟨pc.kind, g.player⟩, old, nw, none⟩ = some h0 ∧
        engineF fuel (.check h0) = some false) ∧
      (m = ⟨⟨pc.kind, g.player⟩, old, nw, none⟩ ∨
        ((⟨⟨pc.kind, g.player⟩, old, nw, none⟩ : Move).piece_can_be_promoted = true ∧
          ∃ pr ∈ promotionList, m = ⟨⟨pc.kind, g.player⟩, old, nw, some pr⟩)) := by
  intro fuel g cands
  induction cands with
  | nil =>
    intro res h m hm
    unfold findAux at h
    injection h with h2
    subst h2
    simp at hm
  | cons c rest ih =>
    obtain ⟨old, nw⟩ := c
    intro res h m hm
    unfold findAux at h
    dsimp only at h
    split at h
    next hbo => exact ih res h m hm
    next pc hbo =>
      rw [Option.bind_eq_some] at h
      obtain ⟨legal, hleg, h⟩ := h
      by_cases hlv : legal = true
      · subst hlv
        rw [if_pos rfl] at h
        rw [Option.bind_eq_some] at h
        obtain ⟨h0, hhm, h⟩ := h
        rw [Option.bind_eq_some] at h
        obtain ⟨chk, hchk, h⟩ := h
        rw [Option.bind_eq_some] at h
        obtain ⟨tail, htail, h⟩ := h
        by_cases hcv : chk = true
        · subst hcv
          rw [if_pos rfl] at h
          injection h with h2
          subst h2
          exact ih tail htail m hm
        · rw [Bool.not_eq_true] at hcv
          subst hcv
          rw [if_neg (by simp)] at h
          injection h with h2
          subst h2
          rw [List.mem_append] at hm
          rcases hm with hm | hm
          · by_cases hpr : (⟨⟨pc.kind, g.player⟩, old, nw, none⟩ : Move).piece_can_be_promoted
                = true
            · rw [if_pos hpr] at hm
              rw [List.mem_map] at hm
              obtain ⟨pr, hprm, hme⟩ := hm
              exact ⟨old, nw, pc, hbo, hleg, ⟨h0, hhm, hchk⟩,
                Or.inr ⟨hpr, pr, hprm, hme.symm⟩⟩
            · rw [if_neg hpr] at hm
              rw [List.mem_singleton] at hm
              exact ⟨old, nw, pc, hbo, hleg, ⟨h0, hhm, hchk⟩, Or.inl hm⟩
          · exact ih tail htail m hm
      · rw [Bool.not_eq_true] at hlv
        subst hlv
        rw [if_neg (by simp)] at h
        exact ih res h m hm

/-- Changing a pawn into a promoted (non-king) piece of the same side on
the destination square relates the two updated boards. -/
theorem noncastleUpd_promo_rel (b : Board) (pl : Player) (old nw : Space) (pr : Kind)
    (hpr : pr ≠ Kind.king) :
    BoardRel pl (noncastleUpd b ⟨⟨Kind.pawn, pl⟩, old, nw, some pr⟩)
      (noncastleUpd b ⟨⟨Kind.pawn, pl⟩, old, nw, none⟩) := by
  intro s
  unfold noncastleUpd
  dsimp only
  by_cases h1 : s = old
  · left; simp [h1]
  · by_cases h2 : s = nw
    · subst h2
      right
      refine ⟨⟨pr, pl⟩, ⟨Kind.pawn, pl⟩, ?_, ?_, rfl, rfl, hpr, ?_⟩
      · simp [h1, Piece.promote]
      · simp [h1, Piece.promote]
      · dsimp only
        decide
    · left
      simp [h1, h2, Move.is_en_passant]

/-- Claim C6: every move yielded by `find_moves` leaves the mover's own
king out of check — applying it hypothetically and testing check from the
mover's perspective (the turn has not flipped in the hypothetical
position) returns false. For promotion expansions this relies on check
detection being insensitive to the promoted piece's kind. -/
theorem C6_no_self_check : ∀ fuel g ms, find_movesF fuel g = some ms → ∀ m ∈ ms,
    ∃ h₁, hypMove g m = some h₁ ∧ king_is_in_checkF fuel h₁ = some false := by
  intro fuel g ms h m hm
  obtain ⟨old, nw, pc, hbo, hleg, ⟨h0, hhm, hchk⟩, hcase⟩ :=
    findAux_mem fuel g _ ms h m hm
  rcases hcase with rfl | ⟨hpromo, pr, hprm, rfl⟩
  · exact ⟨h0, hhm, hchk⟩
  · have hkind : pc.kind = Kind.pawn := by
      unfold Move.piece_can_be_promoted at hpromo
      exact beq_iff_eq.mp ((Bool.and_eq_true _ _).mp hpromo).1
    have hprk : pr ≠ Kind.king := by
      simp [promotionList] at hprm
      rcases hprm with rfl | rfl | rfl | rfl <;> decide
    rw [hkind] at hhm ⊢
    have hnc0 : (⟨⟨Kind.pawn, g.player⟩, old, nw, none⟩ : Move).is_castle = false := by
      simp [Move.is_castle]
    have hncP : (⟨⟨Kind.pawn, g.player⟩, old, nw, some pr⟩ : Move).is_castle = false := by
      simp [Move.is_castle]
    have hhm0 := hypMove_noncastle g ⟨⟨Kind.pawn, g.player⟩, old, nw, none⟩ hnc0
    have hhmP := hypMove_noncastle g ⟨⟨Kind.pawn, g.player⟩, old, nw, some pr⟩ hncP
    rw [hhm0] at hhm
    injection hhm with hh0
    have hrelb : BoardRel (playerOf g.moveNum)
        (noncastleUpd g.board ⟨⟨Kind.pawn, g.player⟩, old, nw, some pr⟩)
        (noncastleUpd g.board ⟨⟨Kind.pawn, g.player⟩, old, nw, none⟩) :=
      noncastleUpd_promo_rel g.board g.player old nw pr hprk
    have hcongr := (engineF_congr fuel
      { board := noncastleUpd g.board ⟨⟨Kind.pawn, g.player⟩, old, nw, some pr⟩,
        boardType := .static, castleRights := g.castleRights,
        enPassant := none, moveNum := g.moveNum, clock := 0,
        states := [⟨noncastleUpd g.board ⟨⟨Kind.pawn, g.player⟩, old, nw, some pr⟩,
          playerOf g.moveNum, g.castleRights, none⟩] }
      { board := noncastleUpd g.board ⟨⟨Kind.pawn, g.player⟩, old, nw, none⟩,
        boardType := .static, castleRights := g.castleRights,
        enPassant := none, moveNum := g.moveNum, clock := 0,
        states := [⟨noncastleUpd g.board ⟨⟨Kind.pawn, g.player⟩, old, nw, none⟩,
          playerOf g.moveNum, g.castleRights, none⟩] }
      ⟨rfl, rfl, rfl, hrelb⟩).2.2.1
    refine ⟨_, hhmP, ?_⟩
    unfold king_is_in_checkF
    rw [hcongr, hh0]
    exact hchk

set_option maxRecDepth 100000 in
/-- Witness for claim C6: the kings-only game yields exactly the five
plain king steps, and the first of them passes the hypothetical check
test. -/
theorem C6_witness :
    ∃ ms, find_movesF 12 gKings = some ms ∧
      (⟨⟨Kind.king, Player.white⟩, ⟨0, 4⟩, ⟨0, 3⟩, none⟩ : Move) ∈ ms ∧
      ∃ h₁, hypMove gKings ⟨⟨Kind.king, Player.white⟩, ⟨0, 4⟩, ⟨0, 3⟩, none⟩ = some h₁ ∧
        king_is_in_checkF 12 h₁ = some false := by
  have hms : find_movesF 12 gKings = some
      [⟨⟨Kind.king, Player.white⟩, ⟨0, 4⟩, ⟨0, 3⟩, none⟩,
       ⟨⟨Kind.king, Player.white⟩, ⟨0, 4⟩, ⟨0, 5⟩, none⟩,
       ⟨⟨Kind.king, Player.white⟩, ⟨0, 4⟩, ⟨1, 3⟩, none⟩,
       ⟨⟨Kind.king, Player.white⟩, ⟨0, 4⟩, ⟨1, 4⟩, none⟩,
       ⟨⟨Kind.king, Player.white⟩, ⟨0, 4⟩, ⟨1, 5⟩, none⟩] := by decide
  exact ⟨_, hms, by decide,
    C6_no_self_check 12 gKings _ hms _ (by decide)⟩
